import Mathlib

/-!
Verification of the distributed key-value store core.

Shallow embedding of the repository's components:
* `StorageEngine` (src/unnamed/part_005, storage_engine.cpp): in-memory map
  plus an abstract write-ahead log, with the monotonic-timestamp rule.
* `WalFile` (src/src/storage/wal.cpp): byte-level WAL record encoding,
  CRC32 checksum, and the replay loop.
* `ConsistentHashRing.GetNodes` (src/unnamed/part_008, consistent_hash.cpp).
* `ReplicationManager` result assembly (src/unnamed/part_000, replication.cpp).
* `Coordinator.HandlePut` reply (src/unnamed/part_012, coordinator.cpp).
* `MembershipManager.AddMember` / `HandleGossipMessage`
  (src/src/cluster/membership.cpp).

Machine integers are modelled as `Nat` with explicit reductions modulo
`2 ^ w` where the C++ code truncates; C++ `std::optional` is `Option`;
the `std::map`-backed stores are functions `String → Option _`.
-/

/-- Wire operation codes, from src/src/common/types.h (`enum class OpType`). -/
inductive OpType where
  | PUT
  | GET
  | DELETE_OP
  | INTERNAL_PUT
  | INTERNAL_GET
  | INTERNAL_DELETE
  | JOIN_CLUSTER
  | LEAVE_CLUSTER
  | CLUSTER_INFO
  | TRANSFER_KEYS
  | GOSSIP
deriving DecidableEq, Repr

/-- A stored value tagged with version data, from src/src/common/types.h
(`struct VersionedValue`). Timestamps are `uint64_t` wall-clock counts,
modelled as `Nat`. -/
structure VersionedValue where
  value : String
  timestamp : Nat
  origin_node : String
deriving DecidableEq, Repr

/-- One in-memory WAL entry, from wal.h (`struct WALEntry`). -/
structure WALEntry where
  op : OpType
  timestamp : Nat
  key : String
  value : String
deriving DecidableEq, Repr

/-- The storage engine state: the in-memory `store_` map plus the sequence of
records appended to the WAL (storage_engine.cpp keeps the WAL behind
`wal_->Append`; we record the appended entries abstractly). -/
structure StorageEngine where
  store : String → Option VersionedValue
  wal : List WALEntry

/-- Point update of a `String`-keyed map, the effect of `store_[key] = vv`
and of `store_.erase(it)`. -/
def mapWrite (s : String → Option VersionedValue) (key : String)
    (v : Option VersionedValue) : String → Option VersionedValue :=
  fun k => if k = key then v else s k

/-- `StorageEngine::Put` (storage_engine.cpp lines 28-41): append a PUT record
to the WAL, then reject the write as stale when an existing entry has
`timestamp >= ts`, otherwise overwrite. Returns the `bool` result with the
new engine state. -/
def StorageEngine.Put (e : StorageEngine) (key value : String) (ts : Nat)
    (origin_node : String) : Bool × StorageEngine :=
  let e1 : StorageEngine :=
    { e with wal := e.wal ++ [⟨OpType.PUT, ts, key, value⟩] }
  match e1.store key with
  | some vv =>
    if ts ≤ vv.timestamp then
      (false, e1)
    else
      (true, { e1 with store := mapWrite e1.store key (some ⟨value, ts, origin_node⟩) })
  | none => (true, { e1 with store := mapWrite e1.store key (some ⟨value, ts, origin_node⟩) })

/-- `StorageEngine::Get` (storage_engine.cpp lines 43-48): map lookup. -/
def StorageEngine.Get (e : StorageEngine) (key : String) : Option VersionedValue :=
  e.store key

/-- `StorageEngine::Delete` (storage_engine.cpp lines 50-60): append a DELETE
record, then erase only when the key is present with `timestamp < ts`. -/
def StorageEngine.Delete (e : StorageEngine) (key : String) (ts : Nat) :
    Bool × StorageEngine :=
  let e1 : StorageEngine :=
    { e with wal := e.wal ++ [⟨OpType.DELETE_OP, ts, key, ""⟩] }
  match e1.store key with
  | none => (false, e1)
  | some vv =>
    if ts ≤ vv.timestamp then
      (false, e1)
    else
      (true, { e1 with store := mapWrite e1.store key none })

/-- `StorageEngine::ConditionalPut` (storage_engine.cpp lines 66-77): as `Put`
but taking a whole `VersionedValue`. -/
def StorageEngine.ConditionalPut (e : StorageEngine) (key : String)
    (vv : VersionedValue) : Bool × StorageEngine :=
  let e1 : StorageEngine :=
    { e with wal := e.wal ++ [⟨OpType.PUT, vv.timestamp, key, vv.value⟩] }
  match e1.store key with
  | some old =>
    if vv.timestamp ≤ old.timestamp then
      (false, e1)
    else
      (true, { e1 with store := mapWrite e1.store key (some vv) })
  | none => (true, { e1 with store := mapWrite e1.store key (some vv) })

/-- `StorageEngine::BulkPut` (storage_engine.cpp lines 93-105): apply each
entry under the monotonic rule, updating only the in-memory map. The C++
body contains no `wal_->Append` call, so the WAL component is untouched. -/
def StorageEngine.BulkPut (e : StorageEngine)
    (entries : List (String × VersionedValue)) : StorageEngine :=
  entries.foldl
    (fun acc p =>
      match acc.store p.1 with
      | none => { acc with store := mapWrite acc.store p.1 (some p.2) }
      | some old =>
        if old.timestamp < p.2.timestamp then
          { acc with store := mapWrite acc.store p.1 (some p.2) }
        else acc)
    e

/-- The body of `StorageEngine::Recover` (storage_engine.cpp lines 117-142):
fold the replayed WAL entries over the map. PUT-like entries apply when the
key is absent or the existing timestamp is strictly smaller; DELETE-like
entries erase when the key is present with `timestamp <= entry.timestamp`. -/
def recoverApply (entries : List WALEntry)
    (s : String → Option VersionedValue) : String → Option VersionedValue :=
  entries.foldl
    (fun st entry =>
      if entry.op = OpType.PUT ∨ entry.op = OpType.INTERNAL_PUT then
        match st entry.key with
        | none => mapWrite st entry.key (some ⟨entry.value, entry.timestamp, ""⟩)
        | some old =>
          if old.timestamp < entry.timestamp then
            mapWrite st entry.key (some ⟨entry.value, entry.timestamp, ""⟩)
          else st
      else if entry.op = OpType.DELETE_OP ∨ entry.op = OpType.INTERNAL_DELETE then
        match st entry.key with
        | none => st
        | some old =>
          if old.timestamp ≤ entry.timestamp then mapWrite st entry.key none
          else st
      else st)
    s

/-- `StorageEngine::Recover`: replay the engine's WAL into its map. -/
def StorageEngine.Recover (e : StorageEngine) : StorageEngine :=
  { e with store := recoverApply e.wal e.store }

/-- A fresh engine over an empty data directory: empty map, empty WAL. -/
def StorageEngine.fresh : StorageEngine :=
  { store := fun _ => none, wal := [] }

/-- C1: `Put(key, value, ts, origin)` returns `true` and `Get(key)` afterwards
yields `VersionedValue(value, ts, origin)` when the key was absent or the
existing entry's timestamp is strictly below `ts`; otherwise (existing
timestamp at least `ts`, ties included) it returns `false` and the mapping
for the key is unchanged. -/
theorem c1_put_monotonic (e : StorageEngine) (key value : String) (ts : Nat)
    (origin_node : String) :
    ((e.store key = none ∨ (∃ vv, e.store key = some vv ∧ vv.timestamp < ts)) →
      (StorageEngine.Put e key value ts origin_node).1 = true ∧
      (StorageEngine.Put e key value ts origin_node).2.Get key =
        some ⟨value, ts, origin_node⟩) ∧
    ((∃ vv, e.store key = some vv ∧ ts ≤ vv.timestamp) →
      (StorageEngine.Put e key value ts origin_node).1 = false ∧
      (StorageEngine.Put e key value ts origin_node).2.store = e.store) := by
  constructor
  · rintro (habs | ⟨vv, hvv, hlt⟩)
    · simp [StorageEngine.Put, StorageEngine.Get, habs, mapWrite]
    · simp [StorageEngine.Put, StorageEngine.Get, hvv, Nat.not_le.mpr hlt, mapWrite]
  · rintro ⟨vv, hvv, hge⟩
    simp [StorageEngine.Put, StorageEngine.Get, hvv, hge]

/-- Witness for C1: on a fresh engine a first write at ts 100 succeeds and is
readable; a second write at ts 50 is rejected and leaves the map alone. -/
theorem c1_put_monotonic_witness :
    ((StorageEngine.fresh.store "user:1001" = none ∨
        (∃ vv, StorageEngine.fresh.store "user:1001" = some vv ∧ vv.timestamp < 100)) ∧
      (StorageEngine.Put StorageEngine.fresh "user:1001" "v" 100 "n1").1 = true ∧
      (StorageEngine.Put StorageEngine.fresh "user:1001" "v" 100 "n1").2.Get "user:1001" =
        some ⟨"v", 100, "n1"⟩) ∧
    ((∃ vv,
        (StorageEngine.Put StorageEngine.fresh "user:1001" "v" 100 "n1").2.store "user:1001" =
          some vv ∧ 50 ≤ vv.timestamp) ∧
      (StorageEngine.Put
          (StorageEngine.Put StorageEngine.fresh "user:1001" "v" 100 "n1").2
          "user:1001" "old" 50 "n1").1 = false ∧
      (StorageEngine.Put
          (StorageEngine.Put StorageEngine.fresh "user:1001" "v" 100 "n1").2
          "user:1001" "old" 50 "n1").2.store =
        (StorageEngine.Put StorageEngine.fresh "user:1001" "v" 100 "n1").2.store) := by
  refine ⟨⟨Or.inl rfl, ?_⟩, ⟨⟨⟨"v", 100, "n1"⟩, by decide, by decide⟩, ?_⟩⟩
  · exact (c1_put_monotonic StorageEngine.fresh "user:1001" "v" 100 "n1").1
      (Or.inl rfl)
  · exact (c1_put_monotonic
      (StorageEngine.Put StorageEngine.fresh "user:1001" "v" 100 "n1").2
      "user:1001" "old" 50 "n1").2
      ⟨⟨"v", 100, "n1"⟩, by decide, by decide⟩

/-- A client-visible storage mutation: `StorageEngine::Put` or
`StorageEngine::Delete` with its arguments. -/
inductive EngOp where
  | put (key value : String) (ts : Nat) (origin_node : String)
  | del (key : String) (ts : Nat)
deriving DecidableEq, Repr

/-- The key an operation addresses. -/
def EngOp.key : EngOp → String
  | .put k _ _ _ => k
  | .del k _ => k

/-- The timestamp an operation carries. -/
def EngOp.ts : EngOp → Nat
  | .put _ _ t _ => t
  | .del _ t => t

/-- Run one operation against the engine, keeping the resulting state. -/
def applyOp (e : StorageEngine) : EngOp → StorageEngine
  | .put k v t o => (e.Put k v t o).2
  | .del k t => (e.Delete k t).2

/-- Run a sequence of operations left to right. -/
def applyOps (e : StorageEngine) (ops : List EngOp) : StorageEngine :=
  ops.foldl applyOp e

/-- The sub-sequence of operations addressing key `k`. -/
def opsOn (k : String) (ops : List EngOp) : List EngOp :=
  ops.filter (fun o => decide (o.key = k))

/-- The `VersionedValue` a PUT would store, `none` for a DELETE. -/
def EngOp.putVV : EngOp → Option VersionedValue
  | .put _ v t o => some ⟨v, t, o⟩
  | .del _ _ => none

/-- The timestamp of a DELETE, `none` for a PUT. -/
def EngOp.delTs : EngOp → Option Nat
  | .put _ _ _ _ => none
  | .del _ t => some t

/-- All values written by PUTs in the sequence. -/
def putVVs (ops : List EngOp) : List VersionedValue :=
  ops.filterMap EngOp.putVV

/-- All DELETE timestamps in the sequence. -/
def delTss (ops : List EngOp) : List Nat :=
  ops.filterMap EngOp.delTs

/-- Modelled from the spec's words for claim C3: the PUTs whose timestamp
exceeds every DELETE's timestamp. -/
def specLWWWinners (ops : List EngOp) : List VersionedValue :=
  (putVVs ops).filter (fun p => (delTss ops).all (fun d => decide (d < p.timestamp)))

/-- One step of the maximum-timestamp selection. -/
def specMaxStep (acc : Option VersionedValue) (p : VersionedValue) :
    Option VersionedValue :=
  match acc with
  | none => some p
  | some q => if q.timestamp < p.timestamp then some p else acc

/-- A value of maximal timestamp in the list (`none` on the empty list). -/
def specMaxByTs (l : List VersionedValue) : Option VersionedValue :=
  l.foldl specMaxStep none

/-- Modelled from the spec's words for claim C3: the final value the claim
predicts — the maximum-timestamp PUT among those exceeding every DELETE. -/
def specLWWOutcome (ops : List EngOp) : Option VersionedValue :=
  specMaxByTs (specLWWWinners ops)

/-- The effective state transition of one accepted operation: a PUT installs
its value, a DELETE clears the slot. -/
def stepLWW (_cur : Option VersionedValue) : EngOp → Option VersionedValue
  | .put _ v t o => some ⟨v, t, o⟩
  | .del _ _ => none

/-- Concrete operation sequence refuting C3 as stated: the DELETE at ts 150
outruns every PUT, yet a later PUT at ts 120 re-creates the key because the
engine keeps no tombstone. -/
def c3ops : List EngOp :=
  [EngOp.put "k" "a" 100 "n", EngOp.del "k" 150, EngOp.put "k" "b" 120 "n"]

/-- C3 counterexample: after `c3ops` the key is present with timestamp 120,
although a DELETE timestamp (150) exceeds every PUT timestamp, for which the
claim demands absence (its predicted outcome is `none`). -/
theorem c3_counterexample :
    (applyOps StorageEngine.fresh c3ops).store "k" = some ⟨"b", 120, "n"⟩ ∧
    (∃ d ∈ delTss (opsOn "k" c3ops), ∀ p ∈ putVVs (opsOn "k" c3ops), p.timestamp < d) ∧
    specLWWOutcome (opsOn "k" c3ops) = none := by
  refine ⟨by decide, ⟨150, by decide, by decide⟩, by decide⟩

/-- A PUT in `putVVs` has a matching operation with the same timestamp. -/
theorem mem_putVVs_ts {l : List EngOp} {p : VersionedValue}
    (h : p ∈ putVVs l) : ∃ o ∈ l, o.ts = p.timestamp := by
  rw [putVVs, List.mem_filterMap] at h
  obtain ⟨o, ho, hf⟩ := h
  refine ⟨o, ho, ?_⟩
  cases o with
  | put k v t orig =>
    simp only [EngOp.putVV] at hf
    cases hf
    rfl
  | del k t => simp [EngOp.putVV] at hf

/-- A DELETE timestamp in `delTss` has a matching operation carrying it. -/
theorem mem_delTss_ts {l : List EngOp} {d : Nat}
    (h : d ∈ delTss l) : ∃ o ∈ l, o.ts = d := by
  rw [delTss, List.mem_filterMap] at h
  obtain ⟨o, ho, hf⟩ := h
  refine ⟨o, ho, ?_⟩
  cases o with
  | put k v t orig => simp [EngOp.delTs] at hf
  | del k t =>
    simp only [EngOp.delTs, Option.some.injEq] at hf
    simpa [EngOp.ts] using hf

/-- The maximum-timestamp fold yields an element of the list (or the seed). -/
theorem foldl_specMaxStep_mem :
    ∀ (l : List VersionedValue) (acc : Option VersionedValue) (q : VersionedValue),
      l.foldl specMaxStep acc = some q → q ∈ l ∨ acc = some q := by
  intro l
  induction l with
  | nil => intro acc q h; exact Or.inr h
  | cons p rest ih =>
    intro acc q h
    rcases ih (specMaxStep acc p) q h with hq | hq
    · exact Or.inl (List.mem_cons_of_mem _ hq)
    · cases acc with
      | none =>
        simp only [specMaxStep, Option.some.injEq] at hq
        exact Or.inl (hq ▸ List.mem_cons_self _ _)
      | some r =>
        simp only [specMaxStep] at hq
        by_cases hlt : r.timestamp < p.timestamp
        · rw [if_pos hlt] at hq
          cases hq
          exact Or.inl (List.mem_cons_self _ _)
        · rw [if_neg hlt] at hq
          exact Or.inr hq

/-- Appending a DELETE contributes only its timestamp to the projections. -/
theorem projections_append_del (l : List EngOp) (k : String) (t : Nat) :
    putVVs (l ++ [EngOp.del k t]) = putVVs l ∧
    delTss (l ++ [EngOp.del k t]) = delTss l ++ [t] := by
  constructor <;>
    simp [putVVs, delTss, List.filterMap_append, EngOp.putVV, EngOp.delTs]

/-- Appending a PUT contributes only its value to the projections. -/
theorem projections_append_put (l : List EngOp) (k v : String) (t : Nat) (o : String) :
    putVVs (l ++ [EngOp.put k v t o]) = putVVs l ++ [⟨v, t, o⟩] ∧
    delTss (l ++ [EngOp.put k v t o]) = delTss l := by
  constructor <;>
    simp [putVVs, delTss, List.filterMap_append, EngOp.putVV, EngOp.delTs]

/-- On a strictly-timestamp-increasing sequence, the unconditional last-writer
fold agrees with the claim's maximum-timestamp formula. -/
theorem foldl_stepLWW_eq_spec (l : List EngOp)
    (hp : l.Pairwise (fun a b => a.ts < b.ts)) :
    l.foldl stepLWW none = specLWWOutcome l := by
  induction l using List.reverseRecOn with
  | nil => rfl
  | append_singleton l a ih =>
    rw [List.pairwise_append] at hp
    obtain ⟨hl, -, hrel⟩ := hp
    have hlt : ∀ x ∈ l, x.ts < a.ts := fun x hx =>
      hrel x hx a (List.mem_singleton_self _)
    rw [List.foldl_append]
    cases a with
    | del k t =>
      have hw : specLWWWinners (l ++ [EngOp.del k t]) = [] := by
        rw [specLWWWinners, (projections_append_del l k t).1,
          (projections_append_del l k t).2, List.filter_eq_nil_iff]
        intro p hp'
        obtain ⟨o, ho, hts⟩ := mem_putVVs_ts hp'
        have hpt : p.timestamp < t := hts ▸ hlt o ho
        simp only [List.all_append, List.all_cons, List.all_nil, Bool.and_true,
          Bool.and_eq_true, decide_eq_true_eq]
        rintro ⟨-, habs⟩
        exact Nat.lt_asymm hpt habs
      simp [specLWWOutcome, hw, specMaxByTs, stepLWW]
    | put k v t orig =>
      have hwin : specLWWWinners (l ++ [EngOp.put k v t orig]) =
          specLWWWinners l ++ [⟨v, t, orig⟩] := by
        rw [specLWWWinners, specLWWWinners,
          (projections_append_put l k v t orig).1,
          (projections_append_put l k v t orig).2, List.filter_append]
        congr 1
        rw [List.filter_cons]
        have : (delTss l).all
            (fun d => decide (d < (VersionedValue.mk v t orig).timestamp)) = true := by
          rw [List.all_eq_true]
          intro d hd
          obtain ⟨o, ho, hts⟩ := mem_delTss_ts hd
          simpa using hts ▸ hlt o ho
        rw [this]
        rfl
      rw [specLWWOutcome, hwin, specMaxByTs, List.foldl_append]
      have hmax : ∀ q, (specLWWWinners l).foldl specMaxStep none = some q →
          q.timestamp < t := by
        intro q hq
        rcases foldl_specMaxStep_mem _ _ _ hq with hq' | hq'
        · have hq'' : q ∈ putVVs l := List.mem_of_mem_filter hq'
          obtain ⟨o, ho, hts⟩ := mem_putVVs_ts hq''
          exact hts ▸ hlt o ho
        · cases hq'
      cases hfold : (specLWWWinners l).foldl specMaxStep none with
      | none => simp [stepLWW, specMaxStep]
      | some q =>
        have := hmax q hfold
        simp [stepLWW, specMaxStep, this]

/-- Operations on other keys do not disturb the slot of `k`. -/
theorem applyOp_store_other {e : StorageEngine} {o : EngOp} {k : String}
    (h : ¬o.key = k) : (applyOp e o).store k = e.store k := by
  cases o with
  | put key v t orig =>
    have h' : ¬k = key := fun hh => h hh.symm
    cases hs : e.store key with
    | none => simp [applyOp, StorageEngine.Put, hs, mapWrite, h']
    | some vv =>
      by_cases hts : t ≤ vv.timestamp <;>
        simp [applyOp, StorageEngine.Put, hs, mapWrite, h', hts]
  | del key t =>
    have h' : ¬k = key := fun hh => h hh.symm
    cases hs : e.store key with
    | none => simp [applyOp, StorageEngine.Delete, hs]
    | some vv =>
      by_cases hts : t ≤ vv.timestamp <;>
        simp [applyOp, StorageEngine.Delete, hs, mapWrite, h', hts]

/-- Running the engine over a sequence whose operations on `k` carry strictly
increasing timestamps (all above whatever `k` currently holds) acts on the
slot of `k` as the unconditional last-writer fold of those operations. -/
theorem applyOps_store_eq (k : String) :
    ∀ (ops : List EngOp) (e : StorageEngine),
      (opsOn k ops).Pairwise (fun a b => a.ts < b.ts) →
      (∀ o ∈ opsOn k ops, ∀ vv, e.store k = some vv → vv.timestamp < o.ts) →
      (applyOps e ops).store k = (opsOn k ops).foldl stepLWW (e.store k) := by
  intro ops
  induction ops with
  | nil => intro e _ _; rfl
  | cons o rest ih =>
    intro e hp hb
    by_cases hk : o.key = k
    · have hfil : opsOn k (o :: rest) = o :: opsOn k rest := by
        simp [opsOn, List.filter_cons, hk]
      rw [hfil] at hp hb
      have hbo := hb o (List.mem_cons_self _ _)
      have hstep : (applyOp e o).store k = stepLWW (e.store k) o := by
        cases o with
        | put key v t orig =>
          have hkey : key = k := hk
          subst hkey
          cases hs : e.store key with
          | none => simp [applyOp, StorageEngine.Put, hs, mapWrite, stepLWW]
          | some vv =>
            have hvt : vv.timestamp < t := by
              simpa [EngOp.ts] using hbo vv hs
            simp [applyOp, StorageEngine.Put, hs, Nat.not_le.mpr hvt, mapWrite,
              stepLWW]
        | del key t =>
          have hkey : key = k := hk
          subst hkey
          cases hs : e.store key with
          | none => simp [applyOp, StorageEngine.Delete, hs, stepLWW]
          | some vv =>
            have hvt : vv.timestamp < t := by
              simpa [EngOp.ts] using hbo vv hs
            simp [applyOp, StorageEngine.Delete, hs, Nat.not_le.mpr hvt, mapWrite,
              stepLWW]
      rw [List.pairwise_cons] at hp
      have hrec := ih (applyOp e o) hp.2 ?side
      case side =>
        intro o' ho' vv hvv
        rw [hstep] at hvv
        cases o with
        | put key v t orig =>
          simp only [stepLWW, Option.some.injEq] at hvv
          have : vv.timestamp = t := by rw [← hvv]
          rw [this]
          exact hp.1 o' ho'
        | del key t => simp [stepLWW] at hvv
      show (applyOps (applyOp e o) rest).store k = _
      rw [hrec, hstep, hfil, List.foldl_cons]
    · have hfil : opsOn k (o :: rest) = opsOn k rest := by
        simp [opsOn, List.filter_cons, hk]
      rw [hfil] at hp hb
      have hso := applyOp_store_other (e := e) (o := o) (k := k) hk
      have hrec := ih (applyOp e o) hp (by
        intro o' h' vv hvv
        exact hb o' h' vv (by rw [← hso]; exact hvv))
      show (applyOps (applyOp e o) rest).store k = _
      rw [hrec, hso, hfil]

/-- C3 amended: when the operations addressing a key are applied in strictly
increasing timestamp order, the engine's final value for that key is the
maximum-timestamp PUT among those whose timestamp exceeds every DELETE's
timestamp, and the key ends absent whenever some DELETE timestamp exceeds
every PUT timestamp. -/
theorem c3_amended (ops : List EngOp) (k : String)
    (hsorted : (opsOn k ops).Pairwise (fun a b => a.ts < b.ts)) :
    (applyOps StorageEngine.fresh ops).store k = specLWWOutcome (opsOn k ops) ∧
    ((∃ d ∈ delTss (opsOn k ops), ∀ p ∈ putVVs (opsOn k ops), p.timestamp < d) →
      (applyOps StorageEngine.fresh ops).store k = none) := by
  have h1 := applyOps_store_eq k ops StorageEngine.fresh hsorted
    (by intro o _ vv hvv; exact absurd hvv (by simp [StorageEngine.fresh]))
  have h0 : StorageEngine.fresh.store k = none := rfl
  have h2 := foldl_stepLWW_eq_spec (opsOn k ops) hsorted
  rw [h0] at h1
  refine ⟨h1.trans h2, ?_⟩
  rintro ⟨d, hd, hall⟩
  have hw : specLWWWinners (opsOn k ops) = [] := by
    rw [specLWWWinners, List.filter_eq_nil_iff]
    intro p hp'
    have hps := hall p hp'
    simp only [List.all_eq_true, decide_eq_true_eq, not_forall]
    exact ⟨d, hd, fun habs => Nat.lt_asymm hps habs⟩
  rw [h1.trans h2, specLWWOutcome, hw]
  rfl

/-- Operation sequence for the C3 witness: strictly increasing timestamps on
key `k`, with an unrelated key interleaved. -/
def c3wops : List EngOp :=
  [EngOp.put "k" "a" 100 "n", EngOp.put "x" "c" 1 "n", EngOp.del "k" 150,
    EngOp.put "k" "b" 200 "n"]

/-- Witness for the amended C3 at a concrete sorted sequence. -/
theorem c3_amended_witness :
    (opsOn "k" c3wops).Pairwise (fun a b => a.ts < b.ts) ∧
    (applyOps StorageEngine.fresh c3wops).store "k" = specLWWOutcome (opsOn "k" c3wops) ∧
    specLWWOutcome (opsOn "k" c3wops) = some ⟨"b", 200, "n"⟩ := by
  refine ⟨by decide, (c3_amended c3wops "k" (by decide)).1, by decide⟩

/-- C6 (code bug exhibit): `Put("k","v",100)` then `Delete("k",100)` — the
live engine rejects the tie-timestamp delete and keeps the key, but
`Recover` on the very WAL this run produced applies the DELETE entry with a
`<=` comparison (storage_engine.cpp line 133) and loses the key, so the
recovered map differs from the pre-crash map. -/
theorem c6_recover_tie_delete_bug :
    (((StorageEngine.Put StorageEngine.fresh "k" "v" 100 "n1").2.Delete "k" 100).1
        = false) ∧
    ((StorageEngine.Put StorageEngine.fresh "k" "v" 100 "n1").2.Delete "k" 100).2.store "k"
        = some ⟨"v", 100, "n1"⟩ ∧
    (StorageEngine.Recover
        { store := fun _ => none,
          wal := ((StorageEngine.Put StorageEngine.fresh "k" "v" 100 "n1").2.Delete
            "k" 100).2.wal }).store "k" = none := by
  refine ⟨by decide, by decide, by decide⟩

/-- C7 (code bug exhibit): `BulkPut` installs the entry in the in-memory map
but appends nothing to the WAL (storage_engine.cpp lines 93-105 contain no
`wal_->Append`), so a restart that replays that WAL loses the entry. -/
theorem c7_bulkput_not_logged :
    (StorageEngine.fresh.BulkPut [("k", ⟨"v", 100, "n1"⟩)]).store "k"
        = some ⟨"v", 100, "n1"⟩ ∧
    (StorageEngine.fresh.BulkPut [("k", ⟨"v", 100, "n1"⟩)]).wal = [] ∧
    (StorageEngine.Recover
        { store := fun _ => none,
          wal := (StorageEngine.fresh.BulkPut [("k", ⟨"v", 100, "n1"⟩)]).wal
          }).store "k" = none := by
  refine ⟨by decide, by decide, by decide⟩
namespace WalFile

/-- One WAL entry as held in memory around the disk format (wal.h
`struct WALEntry`): the raw op byte, the `uint64` timestamp, and the raw
key/value byte strings. -/
structure WEntry where
  op : Nat
  timestamp : Nat
  key : List Nat
  value : List Nat
deriving DecidableEq, Repr

/-- One round of the CRC32 table construction (wal.cpp `InitCRC32Table`):
`c = (c >> 1) ^ ((c & 1) ? 0xEDB88320 : 0)`. -/
def crcRound (c : Nat) : Nat :=
  (c >>> 1) ^^^ (if c &&& 1 = 1 then 0xEDB88320 else 0)

/-- `crc32_table[i]`: eight rounds applied to the index. -/
def crcTableEntry (i : Nat) : Nat := crcRound^[8] i

/-- One byte step of `WriteAheadLog::ComputeCRC`:
`crc = crc32_table[(crc ^ b) & 0xFF] ^ (crc >> 8)`. -/
def crcStep (crc b : Nat) : Nat :=
  crcTableEntry ((crc ^^^ b) &&& 0xFF) ^^^ (crc >>> 8)

/-- `WriteAheadLog::ComputeCRC` (wal.cpp lines 35-41). -/
def ComputeCRC (data : List Nat) : Nat :=
  (data.foldl crcStep 0xFFFFFFFF) ^^^ 0xFFFFFFFF

theorem crcRound_lt {c : Nat} (h : c < 2 ^ 32) : crcRound c < 2 ^ 32 := by
  have h1 : c >>> 1 < 2 ^ 32 :=
    lt_of_le_of_lt (by rw [Nat.shiftRight_eq_div_pow]; exact Nat.div_le_self _ _) h
  have h2 : (if c &&& 1 = 1 then 0xEDB88320 else 0) < 2 ^ 32 := by
    split <;> decide
  exact Nat.xor_lt_two_pow h1 h2

theorem crcIter_lt (n : Nat) : ∀ {c : Nat}, c < 2 ^ 32 → crcRound^[n] c < 2 ^ 32 := by
  induction n with
  | zero => intro c h; simpa using h
  | succ n ih =>
    intro c h
    rw [Function.iterate_succ_apply']
    exact crcRound_lt (ih h)

theorem crcStep_lt {crc : Nat} (b : Nat) (h : crc < 2 ^ 32) :
    crcStep crc b < 2 ^ 32 := by
  have h1 : crcTableEntry ((crc ^^^ b) &&& 0xFF) < 2 ^ 32 :=
    crcIter_lt 8 (lt_of_le_of_lt Nat.and_le_right (by norm_num))
  have h2 : crc >>> 8 < 2 ^ 32 :=
    lt_of_le_of_lt (by rw [Nat.shiftRight_eq_div_pow]; exact Nat.div_le_self _ _) h
  exact Nat.xor_lt_two_pow h1 h2

theorem computeCRC_lt (data : List Nat) : ComputeCRC data < 2 ^ 32 := by
  have haux : ∀ (l : List Nat) (c : Nat), c < 2 ^ 32 →
      l.foldl crcStep c < 2 ^ 32 := by
    intro l
    induction l with
    | nil => intro c h; simpa using h
    | cons b rest ih => intro c h; exact ih _ (crcStep_lt b h)
  exact Nat.xor_lt_two_pow (haux data 0xFFFFFFFF (by norm_num)) (by norm_num)

/-- Extract the byte `(n >> s) & 0xFF`, as in the serialization loops of
`WriteAheadLog::Append`. -/
def byteAt (n s : Nat) : Nat := (n >>> s) &&& 0xFF

/-- Big-endian 4-byte serialization of a 32-bit quantity (`Append`'s klen,
vlen, entry-size and CRC encodings). -/
def toBytes4 (n : Nat) : List Nat :=
  [byteAt n 24, byteAt n 16, byteAt n 8, n &&& 0xFF]

/-- Big-endian 8-byte serialization of the timestamp (`Append`'s ts loop). -/
def toBytes8 (n : Nat) : List Nat :=
  [byteAt n 56, byteAt n 48, byteAt n 40, byteAt n 32,
   byteAt n 24, byteAt n 16, byteAt n 8, n &&& 0xFF]

/-- `ReadU32` of `WriteAheadLog::Replay`: reassemble four bytes big-endian,
`(b0 << 24) | (b1 << 16) | (b2 << 8) | b3`. -/
def fromBytes4 (l : List Nat) : Nat :=
  match l with
  | [b0, b1, b2, b3] => (b0 <<< 24) ||| (b1 <<< 16) ||| (b2 <<< 8) ||| b3
  | _ => 0

/-- The timestamp parse loop of `Replay`: `ts = (ts << 8) | record[pos++]`. -/
def fromBytes8 (l : List Nat) : Nat :=
  l.foldl (fun ts b => (ts <<< 8) ||| b) 0

/-- Disjoint-lane OR coincides with addition: the low summand fits entirely
below the shifted one. -/
theorem shiftLeft_lor_eq_add : ∀ (k a b : Nat), b < 2 ^ k →
    (a <<< k) ||| b = a <<< k + b := by
  intro k
  induction k with
  | zero =>
    intro a b hb
    have : b = 0 := by omega
    subst this
    simp
  | succ k ih =>
    intro a b hb
    have hdec : Nat.bit b.bodd b.div2 = b := Nat.bit_decomp b
    rw [← hdec]
    have ha : a <<< (k + 1) = Nat.bit false (a <<< k) := by
      simp only [Nat.shiftLeft_eq, Nat.bit_val, Bool.toNat_false, pow_succ]
      ring
    rw [ha, Nat.lor_bit]
    have hb' : b.div2 < 2 ^ k := by
      have h2 : b.div2 = b / 2 := Nat.div2_val b
      have h3 : b < 2 ^ (k + 1) := hb
      rw [h2]
      rw [pow_succ] at h3
      omega
    rw [ih a b.div2 hb']
    simp only [Nat.bit_val, Bool.false_or, Nat.shiftLeft_eq, Bool.toNat_false]
    ring

theorem byteAt_eq (n s : Nat) : byteAt n s = n / 2 ^ s % 256 := by
  have h255 : (255 : Nat) = 2 ^ 8 - 1 := by norm_num
  rw [byteAt]
  show (n >>> s) &&& 255 = _
  rw [h255, Nat.and_pow_two_sub_one_eq_mod, Nat.shiftRight_eq_div_pow]

theorem and255_eq (n : Nat) : n &&& 0xFF = n % 256 := by
  have h255 : (255 : Nat) = 2 ^ 8 - 1 := by norm_num
  show n &&& 255 = _
  rw [h255, Nat.and_pow_two_sub_one_eq_mod]

theorem byteAt_lt (n s : Nat) : byteAt n s < 256 :=
  lt_of_le_of_lt Nat.and_le_right (by norm_num)

theorem and255_lt (n : Nat) : n &&& 0xFF < 256 :=
  lt_of_le_of_lt Nat.and_le_right (by norm_num)

theorem fromBytes4_toBytes4 {n : Nat} (h : n < 2 ^ 32) :
    fromBytes4 (toBytes4 n) = n := by
  rw [toBytes4, fromBytes4]
  rw [Nat.lor_assoc, Nat.lor_assoc]
  rw [shiftLeft_lor_eq_add 8 (byteAt n 8) (n &&& 0xFF)
    (lt_of_lt_of_le (and255_lt n) (by norm_num))]
  rw [shiftLeft_lor_eq_add 16 (byteAt n 16) _ (by
    have h1 := byteAt_lt n 8
    have h2 := and255_lt n
    rw [Nat.shiftLeft_eq]
    omega)]
  rw [shiftLeft_lor_eq_add 24 (byteAt n 24) _ (by
    have h1 := byteAt_lt n 16
    have h2 := byteAt_lt n 8
    have h3 := and255_lt n
    rw [Nat.shiftLeft_eq, Nat.shiftLeft_eq]
    omega)]
  simp only [Nat.shiftLeft_eq, byteAt_eq, and255_eq]
  omega

theorem fromBytes8_toBytes8 {n : Nat} (h : n < 2 ^ 64) :
    fromBytes8 (toBytes8 n) = n := by
  rw [toBytes8, fromBytes8]
  simp only [List.foldl_cons, List.foldl_nil]
  rw [Nat.zero_shiftLeft]
  rw [Nat.zero_or]
  rw [shiftLeft_lor_eq_add 8 _ _ (byteAt_lt n 48)]
  rw [shiftLeft_lor_eq_add 8 _ _ (byteAt_lt n 40)]
  rw [shiftLeft_lor_eq_add 8 _ _ (byteAt_lt n 32)]
  rw [shiftLeft_lor_eq_add 8 _ _ (byteAt_lt n 24)]
  rw [shiftLeft_lor_eq_add 8 _ _ (byteAt_lt n 16)]
  rw [shiftLeft_lor_eq_add 8 _ _ (byteAt_lt n 8)]
  rw [shiftLeft_lor_eq_add 8 _ _ (and255_lt n)]
  simp only [Nat.shiftLeft_eq, byteAt_eq, and255_eq]
  omega


/-- The record bytes `WriteAheadLog::Append` builds (wal.cpp lines 73-97):
op byte, 8-byte big-endian timestamp, 4-byte key length, key bytes, 4-byte
value length, value bytes. The `static_cast<uint8_t>(op)` is `% 256`; the
`static_cast<uint32_t>` casts on the lengths drop bits at and above 2 ^ 32,
which the byte extractions of `toBytes4` ignore anyway. -/
def encodeRecord (op ts : Nat) (key value : List Nat) : List Nat :=
  [op % 256] ++ toBytes8 ts ++ toBytes4 key.length ++ key ++
    toBytes4 value.length ++ value

/-- The on-disk blob of one append (wal.cpp lines 102-116):
`[4B entry_size][record][4B crc]`. -/
def encodeEntry (e : WEntry) : List Nat :=
  let record := encodeRecord e.op e.timestamp e.key e.value
  toBytes4 record.length ++ record ++ toBytes4 (ComputeCRC record)

/-- The file contents after appending `entries` in order to an empty log. -/
def walBytes : List WEntry → List Nat
  | [] => []
  | e :: rest => encodeEntry e ++ walBytes rest

/-- The record-parsing section of `WriteAheadLog::Replay` (wal.cpp lines
187-219): read the op byte, the 8-byte timestamp, the length-prefixed key
and the length-prefixed value, bailing out whenever a field overruns the
record. -/
def parseRecord (r : List Nat) : Option WEntry :=
  match r with
  | [] => none
  | op :: rest0 =>
    if rest0.length < 8 then none else
    let ts := fromBytes8 (rest0.take 8)
    let rest1 := rest0.drop 8
    if rest1.length < 4 then none else
    let klen := fromBytes4 (rest1.take 4)
    let rest2 := rest1.drop 4
    if rest2.length < klen then none else
    let key := rest2.take klen
    let rest3 := rest2.drop klen
    if rest3.length < 4 then none else
    let vlen := fromBytes4 (rest3.take 4)
    let rest4 := rest3.drop 4
    if rest4.length < vlen then none else
    some ⟨op, ts, key, rest4.take vlen⟩

/-- The replay loop of `WriteAheadLog::Replay` (wal.cpp lines 157-223): read
the 4-byte entry size (clean stop at end of file), the record bytes and the
4-byte CRC (stop on short reads), stop on CRC mismatch or a malformed
record, otherwise collect the entry and continue. The `fuel` argument only
bounds the iteration count for termination; every executed iteration
consumes at least 8 bytes, so `fuel = bytes.length` never runs out. -/
def replayGo : Nat → List Nat → List WEntry
  | 0, _ => []
  | fuel + 1, bytes =>
    if bytes.length < 4 then [] else
    let entry_size := fromBytes4 (bytes.take 4)
    let rest := bytes.drop 4
    if rest.length < entry_size then [] else
    let record := rest.take entry_size
    let rest2 := rest.drop entry_size
    if rest2.length < 4 then [] else
    let stored_crc := fromBytes4 (rest2.take 4)
    let rest3 := rest2.drop 4
    if ComputeCRC record ≠ stored_crc then [] else
    match parseRecord record with
    | none => []
    | some e => e :: replayGo fuel rest3

/-- `WriteAheadLog::Replay` on a file holding `bytes`. -/
def Replay (bytes : List Nat) : List WEntry := replayGo bytes.length bytes

/-- Well-formedness of an entry with respect to the machine widths of the
C++ fields: the op fits a byte, the timestamp fits `uint64_t`, and the whole
record length fits `uint32_t`. -/
abbrev WEntry.wf (e : WEntry) : Prop :=
  e.op < 256 ∧ e.timestamp < 2 ^ 64 ∧ 17 + e.key.length + e.value.length < 2 ^ 32

theorem encodeRecord_length (op ts : Nat) (key value : List Nat) :
    (encodeRecord op ts key value).length = 17 + key.length + value.length := by
  simp [encodeRecord, toBytes4, toBytes8]
  omega

theorem toBytes4_length (n : Nat) : (toBytes4 n).length = 4 := rfl

theorem toBytes8_length (n : Nat) : (toBytes8 n).length = 8 := rfl

theorem parseRecord_encodeRecord (e : WEntry) (h : e.wf) :
    parseRecord (encodeRecord e.op e.timestamp e.key e.value) = some e := by
  obtain ⟨op, ts, key, value⟩ := e
  obtain ⟨hop, hts, hlen⟩ := h
  simp only at hop hts hlen
  have hk : key.length < 2 ^ 32 := by omega
  have hv : value.length < 2 ^ 32 := by omega
  have hrec : encodeRecord op ts key value =
      (op % 256) :: (toBytes8 ts ++ (toBytes4 key.length ++
        (key ++ (toBytes4 value.length ++ value)))) := by
    simp [encodeRecord, List.append_assoc]
  have t1 : List.take 8 (toBytes8 ts ++ (toBytes4 key.length ++
      (key ++ (toBytes4 value.length ++ value)))) = toBytes8 ts :=
    List.take_left' (toBytes8_length _)
  have d1 : List.drop 8 (toBytes8 ts ++ (toBytes4 key.length ++
      (key ++ (toBytes4 value.length ++ value)))) =
      toBytes4 key.length ++ (key ++ (toBytes4 value.length ++ value)) :=
    List.drop_left' (toBytes8_length _)
  have t2 : List.take 4 (toBytes4 key.length ++
      (key ++ (toBytes4 value.length ++ value))) = toBytes4 key.length :=
    List.take_left' (toBytes4_length _)
  have d2 : List.drop 4 (toBytes4 key.length ++
      (key ++ (toBytes4 value.length ++ value))) =
      key ++ (toBytes4 value.length ++ value) :=
    List.drop_left' (toBytes4_length _)
  have t3 : List.take key.length (key ++ (toBytes4 value.length ++ value)) = key :=
    List.take_left' rfl
  have d3 : List.drop key.length (key ++ (toBytes4 value.length ++ value)) =
      toBytes4 value.length ++ value :=
    List.drop_left' rfl
  have t4 : List.take 4 (toBytes4 value.length ++ value) = toBytes4 value.length :=
    List.take_left' (toBytes4_length _)
  have d4 : List.drop 4 (toBytes4 value.length ++ value) = value :=
    List.drop_left' (toBytes4_length _)
  have hg1 : ¬(toBytes8 ts ++ (toBytes4 key.length ++
      (key ++ (toBytes4 value.length ++ value)))).length < 8 := by
    simp only [List.length_append, toBytes8_length, toBytes4_length]
    omega
  have hg2 : ¬(toBytes4 key.length ++
      (key ++ (toBytes4 value.length ++ value))).length < 4 := by
    simp only [List.length_append, toBytes4_length]
    omega
  have hg3 : ¬(key ++ (toBytes4 value.length ++ value)).length < key.length := by
    simp only [List.length_append, toBytes4_length]
    omega
  have hg4 : ¬(toBytes4 value.length ++ value).length < 4 := by
    simp only [List.length_append, toBytes4_length]
    omega
  have hg5 : ¬value.length < value.length := lt_irrefl _
  rw [hrec, parseRecord]
  simp only [t1, d1, t2, d2, t3, d3, t4, d4,
    fromBytes8_toBytes8 hts, fromBytes4_toBytes4 hk, fromBytes4_toBytes4 hv,
    hg1, hg2, hg3, hg4, hg5, if_false, List.take_length,
    Nat.mod_eq_of_lt hop, if_neg]

theorem replayGo_nil (fuel : Nat) : replayGo fuel [] = [] := by
  cases fuel <;> simp [replayGo]

theorem encodeEntry_length_ge (e : WEntry) : 8 ≤ (encodeEntry e).length := by
  simp [encodeEntry, toBytes4]

theorem replayGo_walBytes :
    ∀ (entries : List WEntry) (fuel : Nat),
      (∀ e ∈ entries, e.wf) → (walBytes entries).length ≤ fuel →
      replayGo fuel (walBytes entries) = entries := by
  intro entries
  induction entries with
  | nil => intro fuel _ _; exact replayGo_nil fuel
  | cons e rest ih =>
    intro fuel hwf hfuel
    have hewf : e.wf := hwf e (List.mem_cons_self _ _)
    obtain ⟨hop, hts, hlen⟩ := hewf
    have hL : (encodeRecord e.op e.timestamp e.key e.value).length < 2 ^ 32 := by
      rw [encodeRecord_length]
      exact hlen
    have hthis : walBytes (e :: rest) = encodeEntry e ++ walBytes rest := rfl
    have hge := encodeEntry_length_ge e
    have hlen_all : (walBytes (e :: rest)).length =
        (encodeEntry e).length + (walBytes rest).length := by
      rw [hthis, List.length_append]
    cases fuel with
    | zero =>
      exfalso
      omega
    | succ f =>
      have hsplit : walBytes (e :: rest) =
          toBytes4 (encodeRecord e.op e.timestamp e.key e.value).length ++
          (encodeRecord e.op e.timestamp e.key e.value ++
            (toBytes4 (ComputeCRC (encodeRecord e.op e.timestamp e.key e.value)) ++
              walBytes rest)) := by
        rw [hthis, encodeEntry]
        simp [List.append_assoc]
      have t1 : List.take 4
          (toBytes4 (encodeRecord e.op e.timestamp e.key e.value).length ++
            (encodeRecord e.op e.timestamp e.key e.value ++
              (toBytes4 (ComputeCRC (encodeRecord e.op e.timestamp e.key e.value)) ++
                walBytes rest))) =
          toBytes4 (encodeRecord e.op e.timestamp e.key e.value).length :=
        List.take_left' (toBytes4_length _)
      have d1 : List.drop 4
          (toBytes4 (encodeRecord e.op e.timestamp e.key e.value).length ++
            (encodeRecord e.op e.timestamp e.key e.value ++
              (toBytes4 (ComputeCRC (encodeRecord e.op e.timestamp e.key e.value)) ++
                walBytes rest))) =
          encodeRecord e.op e.timestamp e.key e.value ++
            (toBytes4 (ComputeCRC (encodeRecord e.op e.timestamp e.key e.value)) ++
              walBytes rest) :=
        List.drop_left' (toBytes4_length _)
      have t2 : List.take (encodeRecord e.op e.timestamp e.key e.value).length
          (encodeRecord e.op e.timestamp e.key e.value ++
            (toBytes4 (ComputeCRC (encodeRecord e.op e.timestamp e.key e.value)) ++
              walBytes rest)) = encodeRecord e.op e.timestamp e.key e.value :=
        List.take_left' rfl
      have d2 : List.drop (encodeRecord e.op e.timestamp e.key e.value).length
          (encodeRecord e.op e.timestamp e.key e.value ++
            (toBytes4 (ComputeCRC (encodeRecord e.op e.timestamp e.key e.value)) ++
              walBytes rest)) =
          toBytes4 (ComputeCRC (encodeRecord e.op e.timestamp e.key e.value)) ++
            walBytes rest :=
        List.drop_left' rfl
      have t3 : List.take 4
          (toBytes4 (ComputeCRC (encodeRecord e.op e.timestamp e.key e.value)) ++
            walBytes rest) =
          toBytes4 (ComputeCRC (encodeRecord e.op e.timestamp e.key e.value)) :=
        List.take_left' (toBytes4_length _)
      have d3 : List.drop 4
          (toBytes4 (ComputeCRC (encodeRecord e.op e.timestamp e.key e.value)) ++
            walBytes rest) = walBytes rest :=
        List.drop_left' (toBytes4_length _)
      have hg1 : ¬(toBytes4 (encodeRecord e.op e.timestamp e.key e.value).length ++
          (encodeRecord e.op e.timestamp e.key e.value ++
            (toBytes4 (ComputeCRC (encodeRecord e.op e.timestamp e.key e.value)) ++
              walBytes rest))).length < 4 := by
        simp only [List.length_append, toBytes4_length]
        omega
      have hg2 : ¬(encodeRecord e.op e.timestamp e.key e.value ++
          (toBytes4 (ComputeCRC (encodeRecord e.op e.timestamp e.key e.value)) ++
            walBytes rest)).length <
          (encodeRecord e.op e.timestamp e.key e.value).length := by
        simp only [List.length_append]
        omega
      have hg3 : ¬(toBytes4 (ComputeCRC (encodeRecord e.op e.timestamp e.key e.value)) ++
          walBytes rest).length < 4 := by
        simp only [List.length_append, toBytes4_length]
        omega
      have hg4 : ¬ComputeCRC (encodeRecord e.op e.timestamp e.key e.value) ≠
          ComputeCRC (encodeRecord e.op e.timestamp e.key e.value) := by
        simp
      have hrest : replayGo f (walBytes rest) = rest := by
        apply ih f (fun x hx => hwf x (List.mem_cons_of_mem _ hx))
        omega
      rw [hsplit, replayGo]
      simp only [t1, d1, t2, d2, t3, d3, fromBytes4_toBytes4 hL,
        fromBytes4_toBytes4 (computeCRC_lt _), hg1, hg2, hg3, hg4, if_false,
        parseRecord_encodeRecord e ⟨hop, hts, hlen⟩, hrest]

/-- C2: for every finite sequence of well-formed `Append` calls on one log,
`Replay` returns exactly that sequence of entries — same op byte, timestamp,
key and value — in append order. -/
theorem c2_wal_roundtrip (entries : List WEntry)
    (h : ∀ e ∈ entries, e.wf) : Replay (walBytes entries) = entries :=
  replayGo_walBytes entries (walBytes entries).length h (le_refl _)

/-- Witness for C2: a two-entry log — PUT("k","v",ts=100) then
DELETE("k",ts=200) — replays to exactly those entries. -/
theorem c2_wal_roundtrip_witness :
    (∀ e ∈ ([⟨1, 100, [107], [118]⟩, ⟨3, 200, [107], []⟩] : List WEntry), e.wf) ∧
    Replay (walBytes [⟨1, 100, [107], [118]⟩, ⟨3, 200, [107], []⟩]) =
      [⟨1, 100, [107], [118]⟩, ⟨3, 200, [107], []⟩] := by
  refine ⟨by decide, c2_wal_roundtrip _ (by decide)⟩

end WalFile
/-- 32-bit left rotation on `uint32_t` (murmurhash3.cpp `rotl32`):
`(x << r) | (x >> (32 - r))`, the left shift truncated to 32 bits. -/
def rotl32 (x r : Nat) : Nat :=
  ((x <<< r) % 2 ^ 32) ||| (x >>> (32 - r))

/-- Murmur finalization mix (murmurhash3.cpp `fmix32`); the `uint32_t`
multiplications reduce modulo `2 ^ 32`. -/
def fmix32 (h : Nat) : Nat :=
  let h1 := h ^^^ (h >>> 16)
  let h2 := (h1 * 0x85ebca6b) % 2 ^ 32
  let h3 := h2 ^^^ (h2 >>> 13)
  let h4 := (h3 * 0xc2b2ae35) % 2 ^ 32
  h4 ^^^ (h4 >>> 16)

/-- One body block of MurmurHash3_x86_32 (murmurhash3.cpp lines 38-47). -/
def murmurBlockMix (h1 k : Nat) : Nat :=
  let k1 := (k * 0xcc9e2d51) % 2 ^ 32
  let k2 := rotl32 k1 15
  let k3 := (k2 * 0x1b873593) % 2 ^ 32
  let g1 := h1 ^^^ k3
  let g2 := rotl32 g1 13
  (g2 * 5 + 0xe6546b64) % 2 ^ 32

/-- The body loop: consume the `len / 4` full blocks, each read little-endian
from four bytes (the `memcpy` of an x86 `uint32_t`), and hand back the
`len % 4` tail bytes. -/
def murmurBodyLoop : Nat → List Nat → Nat × List Nat
  | h1, b0 :: b1 :: b2 :: b3 :: rest =>
    murmurBodyLoop
      (murmurBlockMix h1 (b0 ||| (b1 <<< 8) ||| (b2 <<< 16) ||| (b3 <<< 24))) rest
  | h1, rest => (h1, rest)

/-- The tail `k1` accumulation (murmurhash3.cpp lines 52-56), with the
fallthrough cases for `len & 3` equal to 3, 2 and 1. -/
def murmurTailK1 : List Nat → Nat
  | [t0] => t0
  | [t0, t1] => (t1 <<< 8) ^^^ t0
  | [t0, t1, t2] => ((t2 <<< 16) ^^^ (t1 <<< 8)) ^^^ t0
  | _ => 0

/-- Mix the tail bytes into the state (murmurhash3.cpp lines 52-60); when the
tail is empty no case of the `switch` runs. -/
def murmurTailMix (h1 : Nat) (tail : List Nat) : Nat :=
  match tail with
  | [] => h1
  | _ =>
    let k1 := (murmurTailK1 tail * 0xcc9e2d51) % 2 ^ 32
    let k2 := rotl32 k1 15
    let k3 := (k2 * 0x1b873593) % 2 ^ 32
    h1 ^^^ k3

/-- `MurmurHash3_x86_32` over a byte string (murmurhash3.cpp lines 26-66). -/
def MurmurHash3_x86_32 (data : List Nat) (seed : Nat) : Nat :=
  let p := murmurBodyLoop seed data
  let h1 := murmurTailMix p.1 p.2
  fmix32 (h1 ^^^ (data.length % 2 ^ 32))

/-- `Hash` (murmurhash3.h): murmur with seed 0. -/
def Hash (key : List Nat) : Nat := MurmurHash3_x86_32 key 0

/-- The consistent hash ring state (consistent_hash.h): the sorted
`std::map<uint32_t, std::string> ring_` as an ascending association list,
and the `std::set<std::string> physical_nodes_` as a duplicate-free list. -/
structure ConsistentHashRing where
  ring : List (Nat × String)
  physical_nodes : List String

/-- The collection loop of `ConsistentHashRing::GetNodes` (consistent_hash.cpp
lines 86-97): walk the ring positions in clockwise order, appending node ids
not yet collected, until `count` ids are collected or the whole ring has
been walked. The C++ `seen` set always holds exactly the ids in `result`, so
membership in `result` models it. -/
def walkCollect (ids : List String) (count : Nat) (result : List String) :
    List String :=
  match ids with
  | [] => result
  | id :: rest =>
    if count ≤ result.length then result
    else if id ∈ result then walkCollect rest count result
    else walkCollect rest count (result ++ [id])

/-- `ConsistentHashRing::GetNodes` (consistent_hash.cpp lines 68-100): fail on
an empty ring (C++ throws), clamp the count to the physical node total, find
the `upper_bound` of the key hash, and walk clockwise from there; the
wrap-around iteration is the rotation of the position list at that index. -/
def ConsistentHashRing.GetNodes (r : ConsistentHashRing) (key : List Nat)
    (count : Nat) : Option (List String) :=
  if r.ring = [] then none
  else
    let available := r.physical_nodes.length
    let clamped := if available < count then available else count
    let hash := Hash key
    let idx := r.ring.findIdx (fun e => decide (hash < e.1))
    let rot := r.ring.drop idx ++ r.ring.take idx
    some (walkCollect (rot.map Prod.snd) clamped [])

theorem walkCollect_spec :
    ∀ (ids : List String) (count : Nat) (acc : List String),
      acc.Nodup → acc.length ≤ count →
      (walkCollect ids count acc).Nodup ∧
      (walkCollect ids count acc).length =
        min count (acc.toFinset ∪ ids.toFinset).card := by
  intro ids
  induction ids with
  | nil =>
    intro count acc hnd hle
    rw [walkCollect]
    refine ⟨hnd, ?_⟩
    simp only [List.toFinset_nil, Finset.union_empty]
    rw [List.toFinset_card_of_nodup hnd]
    omega
  | cons id rest ih =>
    intro count acc hnd hle
    rw [walkCollect]
    by_cases hstop : count ≤ acc.length
    · rw [if_pos hstop]
      have hcnt : acc.length = count := le_antisymm hle hstop
      refine ⟨hnd, ?_⟩
      have hcard : count ≤ (acc.toFinset ∪ (id :: rest).toFinset).card := by
        have h1 : acc.toFinset.card ≤ (acc.toFinset ∪ (id :: rest).toFinset).card :=
          Finset.card_le_card Finset.subset_union_left
        rw [List.toFinset_card_of_nodup hnd, hcnt] at h1
        exact h1
      omega
    · rw [if_neg hstop]
      by_cases hmem : id ∈ acc
      · rw [if_pos hmem]
        have hrec := ih count acc hnd hle
        refine ⟨hrec.1, ?_⟩
        rw [hrec.2]
        congr 2
        ext x
        simp only [Finset.mem_union, List.mem_toFinset, List.mem_cons]
        constructor
        · rintro (hx | hx)
          · exact Or.inl hx
          · exact Or.inr (Or.inr hx)
        · rintro (hx | hx | hx)
          · exact Or.inl hx
          · exact Or.inl (hx ▸ hmem)
          · exact Or.inr hx
      · rw [if_neg hmem]
        have hnd' : (acc ++ [id]).Nodup := by
          rw [List.nodup_append]
          refine ⟨hnd, List.nodup_singleton id, ?_⟩
          intro x hx hx'
          rw [List.mem_singleton] at hx'
          exact hmem (hx' ▸ hx)
        have hle' : (acc ++ [id]).length ≤ count := by
          rw [List.length_append, List.length_singleton]
          omega
        have hrec := ih count (acc ++ [id]) hnd' hle'
        refine ⟨hrec.1, ?_⟩
        rw [hrec.2]
        congr 2
        ext x
        simp only [Finset.mem_union, List.mem_toFinset, List.mem_append,
          List.mem_singleton, List.mem_cons]
        tauto

/-- C9: on a ring holding at least one node — with the ring entries covering
exactly the physical node set, as `AddNode`/`RemoveNode` maintain absent
vnode-hash collisions — `GetNodes(K, N)` with `N ≥ 1` returns a
duplicate-free list whose length is `min N |physical nodes|`. -/
theorem c9_getNodes_nodup_length (r : ConsistentHashRing) (key : List Nat)
    (N : Nat) (_hN : 1 ≤ N) (hnodes : r.physical_nodes ≠ [])
    (hnodup : r.physical_nodes.Nodup)
    (hcover : ∀ n, n ∈ r.physical_nodes ↔ n ∈ r.ring.map Prod.snd) :
    ∃ l, r.GetNodes key N = some l ∧ l.Nodup ∧
      l.length = min N r.physical_nodes.length := by
  obtain ⟨n0, hn0⟩ := List.exists_mem_of_ne_nil _ hnodes
  have hring_ne : r.ring ≠ [] := by
    intro h0
    have hmem := (hcover n0).1 hn0
    rw [h0] at hmem
    simp at hmem
  rw [ConsistentHashRing.GetNodes, if_neg hring_ne]
  set available := r.physical_nodes.length with havail
  set clamped := if available < N then available else N with hclamped
  set idx := r.ring.findIdx (fun e => decide (Hash key < e.1)) with hidx
  set rot := r.ring.drop idx ++ r.ring.take idx with hrot
  have hcl_le : clamped ≤ N := by
    rw [hclamped]
    split <;> omega
  have hw := walkCollect_spec (rot.map Prod.snd) clamped [] List.nodup_nil
    (Nat.zero_le _)
  refine ⟨_, rfl, hw.1, ?_⟩
  rw [hw.2]
  have hsets : (rot.map Prod.snd).toFinset = r.physical_nodes.toFinset := by
    have h1 : (rot.map Prod.snd).toFinset = (r.ring.map Prod.snd).toFinset := by
      rw [hrot, List.map_append, List.toFinset_append, Finset.union_comm,
        ← List.toFinset_append, ← List.map_append, List.take_append_drop]
    rw [h1]
    ext x
    simp only [List.mem_toFinset]
    exact (hcover x).symm
  rw [show (([] : List String).toFinset ∪ (rot.map Prod.snd).toFinset) =
      (rot.map Prod.snd).toFinset by simp]
  rw [hsets, List.toFinset_card_of_nodup hnodup]
  rw [hclamped, havail]
  rcases Nat.lt_or_ge r.physical_nodes.length N with hc | hc
  · rw [if_pos hc]
    omega
  · rw [if_neg (Nat.not_lt.mpr hc)]

/-- Concrete two-node ring for the C9 witness: three vnode positions, two
physical nodes. -/
def c9ring : ConsistentHashRing :=
  { ring := [(10, "a"), (20, "b"), (30, "a")], physical_nodes := ["a", "b"] }

/-- Witness for C9 at a concrete ring, key and replication count. -/
theorem c9_getNodes_nodup_length_witness :
    (1 ≤ 2 ∧ c9ring.physical_nodes ≠ [] ∧ c9ring.physical_nodes.Nodup) ∧
    (∃ l, c9ring.GetNodes [107] 2 = some l ∧ l.Nodup ∧
      l.length = min 2 c9ring.physical_nodes.length) := by
  refine ⟨⟨by decide, by decide, by decide⟩, ?_⟩
  exact c9_getNodes_nodup_length c9ring [107] 2 (by decide) (by decide) (by decide)
    (by intro n; simp [c9ring]; tauto)

/-- Result of a quorum write (replication.h `struct WriteResult`). -/
structure WriteResult where
  success : Bool
  acks : Nat
  error : String
deriving DecidableEq, Repr

/-- Result of a quorum read (replication.h `struct ReadResult`). -/
structure ReadResult where
  success : Bool
  value : Option VersionedValue
  responses : Nat
  error : String
deriving DecidableEq, Repr

/-- The ack-collection and quorum decision of `ReplicationManager::ReplicatedPut`
(replication.cpp lines 74-90), abstracted over the settled outcome of each
parallel replica write: count the `true` futures, succeed iff the count
reaches `W`, otherwise build the quorum-failure message. -/
def replicatedPutCollect (results : List Bool) (W : Nat) : WriteResult :=
  let acks := (results.filter id).length
  if W ≤ acks then
    { success := true, acks := acks, error := "" }
  else
    { success := false, acks := acks,
      error := "Quorum not reached: " ++ toString acks ++ "/" ++
        toString W ++ " acks" }

/-- C4: `ReplicatedPut` reports success iff the acknowledged replica writes
number at least `W`; with fewer acks it fails and the error message carries
the counts as "Quorum not reached: acks/W". -/
theorem c4_put_quorum (results : List Bool) (W : Nat) :
    ((replicatedPutCollect results W).success = true ↔
      W ≤ (results.filter id).length) ∧
    ((replicatedPutCollect results W).success = false →
      (replicatedPutCollect results W).error =
        "Quorum not reached: " ++ toString (results.filter id).length ++ "/" ++
          toString W ++ " acks") := by
  unfold replicatedPutCollect
  by_cases h : W ≤ (results.filter id).length <;> simp [h]

/-- Witness for C4: three replicas, one ack, W = 2 — the put fails and the
message contains "1/2". -/
theorem c4_put_quorum_witness :
    (replicatedPutCollect [true, false, false] 2).success = false ∧
    (replicatedPutCollect [true, false, false] 2).error =
      "Quorum not reached: 1/2 acks" ∧
    (∃ s1 s2, (replicatedPutCollect [true, false, false] 2).error =
      s1 ++ "1/2" ++ s2) := by
  have h := (c4_put_quorum [true, false, false] 2).2 (by decide)
  refine ⟨by decide, by simpa using h, "Quorum not reached: ", " acks", by decide⟩

/-- One step of the latest-version scan of `ReplicatedGet` (replication.cpp
lines 183-188): take the response's value only when it exists and its
timestamp strictly exceeds the current `latest.timestamp`. -/
def selStep (acc : VersionedValue × Bool) (r : Bool × Option VersionedValue) :
    VersionedValue × Bool :=
  match r.2 with
  | some vv => if acc.1.timestamp < vv.timestamp then (vv, true) else acc
  | none => acc

/-- `ReplicationManager::ReplicatedGet` after the parallel reads have settled
(replication.cpp lines 157-220): keep the ok responses, fail below the read
quorum `R`, otherwise scan for the latest version starting from a default
`VersionedValue` with timestamp 0 and `found = false`. -/
def replicatedGetCollect (rs : List (Bool × Option VersionedValue)) (R : Nat) :
    ReadResult :=
  let responses := rs.filter (fun r => r.1)
  if responses.length < R then
    { success := false, value := none, responses := responses.length,
      error := "Read quorum not reached: " ++ toString responses.length ++
        "/" ++ toString R }
  else
    let sel := responses.foldl selStep (⟨"", 0, ""⟩, false)
    { success := true, value := if sel.2 then some sel.1 else none,
      responses := responses.length, error := "" }

/-- The values held by ok responders. -/
def heldValues (rs : List (Bool × Option VersionedValue)) : List VersionedValue :=
  (rs.filter (fun r => r.1)).filterMap (fun r => r.2)

/-- C5 counterexample: a single ok responder holds VersionedValue("v", 0, "n"),
the read quorum R = 1 is met, yet the reply is success-with-no-value — the
timestamp-0 value never beats the scan's timestamp-0 seed. -/
theorem c5_counterexample :
    (replicatedGetCollect [(true, some ⟨"v", 0, "n"⟩)] 1).success = true ∧
    (replicatedGetCollect [(true, some ⟨"v", 0, "n"⟩)] 1).value = none ∧
    heldValues [(true, some ⟨"v", 0, "n"⟩)] = [⟨"v", 0, "n"⟩] := by
  refine ⟨by decide, by decide, by decide⟩

/-- The latest-version scan never lowers the running timestamp. -/
theorem selStep_fold_mono :
    ∀ (l : List (Bool × Option VersionedValue)) (acc : VersionedValue × Bool),
      acc.1.timestamp ≤ (l.foldl selStep acc).1.timestamp := by
  intro l
  induction l with
  | nil => intro acc; exact le_refl _
  | cons r rest ih =>
    intro acc
    rw [List.foldl_cons]
    refine le_trans ?_ (ih (selStep acc r))
    cases hr : r.2 with
    | none => simp [selStep, hr]
    | some vv =>
      by_cases hlt : acc.1.timestamp < vv.timestamp
      · simp only [selStep, hr, if_pos hlt]
        exact le_of_lt hlt
      · simp [selStep, hr, if_neg hlt]

/-- Every value carried by the scanned responses is bounded by the final
running timestamp. -/
theorem selStep_fold_max :
    ∀ (l : List (Bool × Option VersionedValue)) (acc : VersionedValue × Bool)
      (vv : VersionedValue), vv ∈ l.filterMap (fun r => r.2) →
      vv.timestamp ≤ (l.foldl selStep acc).1.timestamp := by
  intro l
  induction l with
  | nil => intro acc vv hv; simp [List.filterMap] at hv
  | cons r rest ih =>
    intro acc vv hv
    rw [List.filterMap_cons] at hv
    cases hr : r.2 with
    | none =>
      rw [hr] at hv
      exact ih (selStep acc r) vv hv
    | some w =>
      rw [hr] at hv
      rw [List.mem_cons] at hv
      rcases hv with hv | hv
      · subst hv
        rw [List.foldl_cons]
        refine le_trans ?_ (selStep_fold_mono rest (selStep acc r))
        by_cases hlt : acc.1.timestamp < vv.timestamp
        · simp [selStep, hr, if_pos hlt]
        · simp only [selStep, hr, if_neg hlt]
          exact Nat.le_of_not_lt hlt
      · exact ih (selStep acc r) vv hv

/-- The scan either returns its seed untouched or a value drawn from the
responses with the found flag set. -/
theorem selStep_fold_cases :
    ∀ (l : List (Bool × Option VersionedValue)) (acc : VersionedValue × Bool),
      l.foldl selStep acc = acc ∨
      ((l.foldl selStep acc).1 ∈ l.filterMap (fun r => r.2) ∧
        (l.foldl selStep acc).2 = true) := by
  intro l
  induction l with
  | nil => intro acc; exact Or.inl rfl
  | cons r rest ih =>
    intro acc
    rw [List.foldl_cons, List.filterMap_cons]
    cases hr : r.2 with
    | none =>
      have hstep : selStep acc r = acc := by simp [selStep, hr]
      rw [hstep]
      exact ih acc
    | some vv =>
      by_cases hlt : acc.1.timestamp < vv.timestamp
      · have hstep : selStep acc r = (vv, true) := by
          simp [selStep, hr, if_pos hlt]
        rw [hstep]
        rcases ih (vv, true) with h | h
        · rw [h]
          exact Or.inr ⟨List.mem_cons_self _ _, rfl⟩
        · exact Or.inr ⟨List.mem_cons_of_mem _ h.1, h.2⟩
      · have hstep : selStep acc r = acc := by
          simp [selStep, hr, if_neg hlt]
        rw [hstep]
        rcases ih acc with h | h
        · exact Or.inl h
        · exact Or.inr ⟨List.mem_cons_of_mem _ h.1, h.2⟩

/-- If the scan ends without setting the found flag, it never moved: every
response value is bounded by the seed's timestamp. -/
theorem selStep_fold_not_found :
    ∀ (l : List (Bool × Option VersionedValue)) (acc : VersionedValue × Bool),
      (l.foldl selStep acc).2 = false →
      ∀ vv ∈ l.filterMap (fun r => r.2), vv.timestamp ≤ acc.1.timestamp := by
  intro l
  induction l with
  | nil => intro acc _ vv hv; simp [List.filterMap] at hv
  | cons r rest ih =>
    intro acc hf vv hv
    rw [List.foldl_cons] at hf
    rw [List.filterMap_cons] at hv
    cases hr : r.2 with
    | none =>
      have hstep : selStep acc r = acc := by simp [selStep, hr]
      rw [hstep] at hf
      rw [hr] at hv
      exact ih acc hf vv hv
    | some w =>
      rw [hr] at hv
      by_cases hlt : acc.1.timestamp < w.timestamp
      · exfalso
        have hstep : selStep acc r = (w, true) := by
          simp [selStep, hr, if_pos hlt]
        rw [hstep] at hf
        rcases selStep_fold_cases rest (w, true) with h | h
        · rw [h] at hf
          simp at hf
        · rw [h.2] at hf
          simp at hf
      · have hstep : selStep acc r = acc := by
          simp [selStep, hr, if_neg hlt]
        rw [hstep] at hf
        rw [List.mem_cons] at hv
        rcases hv with hv | hv
        · subst hv
          exact Nat.le_of_not_lt hlt
        · exact ih acc hf vv hv

/-- C5 amended: given at least `R` ok responses and held values with positive
timestamps (wall-clock write timestamps are positive), the read succeeds, it
yields no value exactly when no ok responder held one, and any returned value
is one of the held values and carries their maximum timestamp. Without the
positivity premise the claim fails: a held value with timestamp 0 is
invisible to the scan, whose seed timestamp is already 0. -/
theorem c5_get_latest_amended (rs : List (Bool × Option VersionedValue)) (R : Nat)
    (hR : R ≤ (rs.filter (fun r => r.1)).length)
    (hpos : ∀ vv ∈ heldValues rs, 0 < vv.timestamp) :
    (replicatedGetCollect rs R).success = true ∧
    ((replicatedGetCollect rs R).value = none ↔ heldValues rs = []) ∧
    (∀ vv, (replicatedGetCollect rs R).value = some vv →
      vv ∈ heldValues rs ∧ ∀ w ∈ heldValues rs, w.timestamp ≤ vv.timestamp) ∧
    (heldValues rs ≠ [] → ∃ vv, (replicatedGetCollect rs R).value = some vv) := by
  have hnlt : ¬(rs.filter (fun r => r.1)).length < R := Nat.not_lt.mpr hR
  have hheld : heldValues rs = (rs.filter (fun r => r.1)).filterMap (fun r => r.2) :=
    rfl
  have hheld_empty : ((rs.filter (fun r => r.1)).foldl selStep (⟨"", 0, ""⟩, false)).2 = false →
      heldValues rs = [] := by
    intro hf
    have hb := selStep_fold_not_found (rs.filter (fun r => r.1))
      (⟨"", 0, ""⟩, false) hf
    rcases hempty : heldValues rs with _ | ⟨vv, tl⟩
    · rfl
    · exfalso
      have hvv : vv ∈ heldValues rs := by
        rw [hempty]
        exact List.mem_cons_self _ _
      have h1 := hpos vv hvv
      have h2 := hb vv (by rw [← hheld]; exact hvv)
      simp only at h2
      omega
  cases hf : ((rs.filter (fun r => r.1)).foldl selStep (⟨"", 0, ""⟩, false)).2 with
  | false =>
    have hv : (replicatedGetCollect rs R).value = none := by
      simp [replicatedGetCollect, hnlt, hf]
    have hsucc : (replicatedGetCollect rs R).success = true := by
      simp [replicatedGetCollect, hnlt]
    refine ⟨hsucc, ?_, ?_, ?_⟩
    · rw [hv]
      simp only [true_iff]
      exact hheld_empty hf
    · intro vv hvv
      rw [hv] at hvv
      exact absurd hvv (by simp)
    · intro hne
      exact absurd (hheld_empty hf) hne
  | true =>
    have hv : (replicatedGetCollect rs R).value =
        some ((rs.filter (fun r => r.1)).foldl selStep (⟨"", 0, ""⟩, false)).1 := by
      simp [replicatedGetCollect, hnlt, hf]
    have hsucc : (replicatedGetCollect rs R).success = true := by
      simp [replicatedGetCollect, hnlt]
    have hmem : ((rs.filter (fun r => r.1)).foldl selStep (⟨"", 0, ""⟩, false)).1 ∈
        heldValues rs := by
      rcases selStep_fold_cases (rs.filter (fun r => r.1)) (⟨"", 0, ""⟩, false)
        with h | h
      · exfalso
        rw [h] at hf
        simp at hf
      · rw [hheld]
        exact h.1
    refine ⟨hsucc, ?_, ?_, ?_⟩
    · rw [hv]
      constructor
      · intro habs
        exact absurd habs (by simp)
      · intro habs
        rw [habs] at hmem
        exact absurd hmem (by simp)
    · intro vv hvv
      rw [hv, Option.some.injEq] at hvv
      subst hvv
      refine ⟨hmem, ?_⟩
      intro w hw
      exact selStep_fold_max _ _ w (by rw [← hheld]; exact hw)
    · intro hne
      exact ⟨_, hv⟩

/-- Response list for the C5 witness. -/
def c5wrs : List (Bool × Option VersionedValue) :=
  [(true, some ⟨"a", 5, "n"⟩), (true, none), (false, some ⟨"z", 99, "n"⟩)]

/-- Witness for the amended C5: two ok responders, one holding a value with a
positive timestamp, R = 2 — the read succeeds and returns a value. -/
theorem c5_get_latest_amended_witness :
    (2 ≤ (c5wrs.filter (fun r => r.1)).length ∧
      (∀ vv ∈ heldValues c5wrs, 0 < vv.timestamp)) ∧
    (replicatedGetCollect c5wrs 2).success = true ∧
    ((replicatedGetCollect c5wrs 2).value = none ↔ heldValues c5wrs = []) := by
  refine ⟨⟨by decide, by decide⟩, ?_⟩
  have h := c5_get_latest_amended c5wrs 2 (by decide) (by decide)
  exact ⟨h.1, h.2.1⟩

/-- Wire-level response status (types.h `enum class StatusCode`). -/
inductive StatusCode where
  | OK
  | NOT_FOUND
  | ERROR
deriving DecidableEq, Repr

/-- `Coordinator::HandleInternalPut` (coordinator.cpp lines 100-109): apply
`ConditionalPut`, discard its boolean result, and always reply OK. -/
def Coordinator.HandleInternalPut (e : StorageEngine) (key value : String)
    (ts : Nat) (origin : String) : StatusCode × StorageEngine :=
  (StatusCode.OK, (e.ConditionalPut key ⟨value, ts, origin⟩).2)

/-- One replica's settled outcome in `ReplicatedPut` (replication.cpp lines
45-72): the local replica acks iff `storage_.Put` returns true; a remote
replica acks iff it is alive and reachable, since a reachable peer's
`HandleInternalPut` replies OK unconditionally — even for a stale write.
`remoteUp` abstracts liveness and connectivity of each peer. -/
def replicaAck (self : String) (e : StorageEngine) (key value : String)
    (ts : Nat) (remoteUp : String → Bool) (node : String) : Bool :=
  if node = self then (e.Put key value ts self).1
  else remoteUp node

/-- `ReplicationManager::ReplicatedPut` over the replica list chosen by the
ring (replication.cpp lines 29-91): fail when no nodes are available,
otherwise collect the per-replica acks and apply the quorum rule. -/
def ReplicatedPutModel (self : String) (e : StorageEngine)
    (replicas : List String) (key value : String) (ts : Nat)
    (remoteUp : String → Bool) (W : Nat) : WriteResult :=
  if replicas = [] then { success := false, acks := 0, error := "No nodes available" }
  else replicatedPutCollect (replicas.map (replicaAck self e key value ts remoteUp)) W

/-- A client-visible reply of `Coordinator::HandlePut`. -/
inductive PutReply where
  | OK
  | ERROR (msg : String)
deriving DecidableEq, Repr

/-- `Coordinator::HandlePut` (coordinator.cpp lines 56-67): OK iff the quorum
write succeeded, otherwise ERROR with the replication error message. -/
def Coordinator.HandlePutReply (res : WriteResult) : PutReply :=
  if res.success then PutReply.OK else PutReply.ERROR res.error

/-- Engine state for the C8 counterexample: key "k" written at timestamp 200. -/
def c8engine : StorageEngine :=
  (StorageEngine.Put StorageEngine.fresh "k" "old" 200 "n1").2

/-- C8 counterexample: a client PUT at timestamp 100 is stale at the local
storage engine (existing timestamp 200). With the default N = 3, W = 2 and
one remote replica down, the stale local write contributes no ack, the
quorum fails at 1/2, and the coordinator replies ERROR — not OK. -/
theorem c8_counterexample :
    (StorageEngine.Put c8engine "k" "new" 100 "n1").1 = false ∧
    Coordinator.HandlePutReply
      (ReplicatedPutModel "n1" c8engine ["n1", "n2", "n3"] "k" "new" 100
        (fun n => decide (n = "n2")) 2) =
      PutReply.ERROR "Quorum not reached: 1/2 acks" ∧
    Coordinator.HandlePutReply
      (ReplicatedPutModel "n1" c8engine ["n1", "n2", "n3"] "k" "new" 100
        (fun n => decide (n = "n2")) 2) ≠ PutReply.OK := by
  refine ⟨by decide, by decide, by decide⟩

/-- C8 amended: a stale client PUT (incoming timestamp at most the existing
one) is a silent no-op at the engine — `Put` returns false and the map is
unchanged — and a reachable remote replica still acks it OK, since
`HandleInternalPut` replies OK unconditionally; but the coordinator replies
OK if and only if the surviving acks (the stale local write contributing
none) still reach `W`. -/
theorem c8_stale_put_amended (e : StorageEngine) (key value : String) (ts : Nat)
    (origin self : String) (replicas : List String) (remoteUp : String → Bool)
    (W : Nat) (hstale : ∃ vv, e.store key = some vv ∧ ts ≤ vv.timestamp) :
    (StorageEngine.Put e key value ts origin).1 = false ∧
    (StorageEngine.Put e key value ts origin).2.store = e.store ∧
    (∀ (e' : StorageEngine) (k' v' : String) (t' : Nat) (o' : String),
      (Coordinator.HandleInternalPut e' k' v' t' o').1 = StatusCode.OK) ∧
    (Coordinator.HandlePutReply
        (ReplicatedPutModel self e replicas key value ts remoteUp W) =
        PutReply.OK ↔
      (replicas ≠ [] ∧
        W ≤ ((replicas.map (replicaAck self e key value ts remoteUp)).filter
          id).length)) := by
  obtain ⟨vv, hvv, hge⟩ := hstale
  refine ⟨?_, ?_, fun _ _ _ _ _ => rfl, ?_⟩
  · simp [StorageEngine.Put, hvv, hge]
  · simp [StorageEngine.Put, hvv, hge]
  · by_cases hrep : replicas = []
    · rw [ReplicatedPutModel, if_pos hrep]
      constructor
      · intro habs
        simp [Coordinator.HandlePutReply] at habs
      · rintro ⟨hne, -⟩
        exact absurd hrep hne
    · rw [ReplicatedPutModel, if_neg hrep]
      rw [Coordinator.HandlePutReply, replicatedPutCollect]
      by_cases hq : W ≤ ((replicas.map (replicaAck self e key value ts remoteUp)).filter
          id).length
      · simp [hq, hrep]
      · simp [hq, hrep]

/-- Witness for the amended C8: same stale write as the counterexample, but
with both remote replicas reachable the acks reach W = 2 and the coordinator
replies OK even though the engine rejected the write locally. -/
theorem c8_stale_put_amended_witness :
    (∃ vv, c8engine.store "k" = some vv ∧ 100 ≤ vv.timestamp) ∧
    (StorageEngine.Put c8engine "k" "new" 100 "n1").1 = false ∧
    (Coordinator.HandlePutReply
        (ReplicatedPutModel "n1" c8engine ["n1", "n2", "n3"] "k" "new" 100
          (fun _ => true) 2) = PutReply.OK ↔
      ((["n1", "n2", "n3"] : List String) ≠ [] ∧
        2 ≤ ((["n1", "n2", "n3"].map (replicaAck "n1" c8engine "k" "new" 100
          (fun _ => true))).filter id).length)) ∧
    Coordinator.HandlePutReply
      (ReplicatedPutModel "n1" c8engine ["n1", "n2", "n3"] "k" "new" 100
        (fun _ => true) 2) = PutReply.OK := by
  have h := c8_stale_put_amended c8engine "k" "new" 100 "n1" "n1"
    ["n1", "n2", "n3"] (fun _ => true) 2 ⟨⟨"old", 200, "n1"⟩, by decide, by decide⟩
  exact ⟨⟨⟨"old", 200, "n1"⟩, by decide, by decide⟩, h.1, h.2.2.2, by decide⟩

/-- Cluster node metadata (types.h `struct NodeInfo`). -/
structure NodeInfo where
  node_id : String
  host : String
  port : Nat
  is_alive : Bool
  last_heartbeat : Nat
deriving DecidableEq, Repr

/-- Point update of the `members_` map (`members_[id] = node`). -/
def memberWrite (ms : String → Option NodeInfo) (id : String) (v : NodeInfo) :
    String → Option NodeInfo :=
  fun k => if k = id then some v else ms k

/-- `MembershipManager::AddMember` (membership.cpp lines 60-84), restricted to
its map effect (the join callback carries no state here): insert an unknown
node verbatim; for a known node, when the incoming heartbeat is strictly
newer, update `last_heartbeat` and revive `is_alive` when it flips a dead
entry back with an alive report — nothing else is written. -/
def MembershipManager.AddMember (ms : String → Option NodeInfo)
    (node : NodeInfo) : String → Option NodeInfo :=
  match ms node.node_id with
  | none => memberWrite ms node.node_id node
  | some ex =>
    if ex.last_heartbeat < node.last_heartbeat then
      memberWrite ms node.node_id
        { ex with
          last_heartbeat := node.last_heartbeat,
          is_alive := if !ex.is_alive && node.is_alive then true else ex.is_alive }
    else ms

/-- `MembershipManager::HandleGossipMessage` (membership.cpp lines 146-160):
merge each decoded entry through `AddMember`, skipping entries naming self. -/
def MembershipManager.HandleGossipMessage (self : String)
    (ms : String → Option NodeInfo) (entries : List NodeInfo) :
    String → Option NodeInfo :=
  entries.foldl
    (fun acc info =>
      if info.node_id = self then acc else MembershipManager.AddMember acc info)
    ms

/-- Merging one gossip entry preserves the identity and address fields of any
member already present. -/
theorem addMember_preserves_address (ms : String → Option NodeInfo)
    (node : NodeInfo) (id : String) (old : NodeInfo) (h : ms id = some old) :
    ∃ x, MembershipManager.AddMember ms node id = some x ∧
      x.node_id = old.node_id ∧ x.host = old.host ∧ x.port = old.port := by
  by_cases hn : node.node_id = id
  · subst hn
    by_cases hhb : old.last_heartbeat < node.last_heartbeat
    · refine ⟨{ old with last_heartbeat := node.last_heartbeat, is_alive := (if !old.is_alive && node.is_alive then true else old.is_alive) }, ?_, rfl, rfl, rfl⟩
      simp [MembershipManager.AddMember, h, if_pos hhb, memberWrite]
    · refine ⟨old, ?_, rfl, rfl, rfl⟩
      simp only [MembershipManager.AddMember, h, if_neg hhb]
  · have hne : ¬id = node.node_id := fun hh => hn hh.symm
    cases hm : ms node.node_id with
    | none =>
      refine ⟨old, ?_, rfl, rfl, rfl⟩
      simp only [MembershipManager.AddMember, hm, memberWrite, if_neg hne]
      exact h
    | some ex =>
      by_cases hhb : ex.last_heartbeat < node.last_heartbeat
      · refine ⟨old, ?_, rfl, rfl, rfl⟩
        simp only [MembershipManager.AddMember, hm, if_pos hhb, memberWrite,
          if_neg hne]
        exact h
      · refine ⟨old, ?_, rfl, rfl, rfl⟩
        simp only [MembershipManager.AddMember, hm, if_neg hhb]
        exact h

/-- C10: merging incoming gossip — through `AddMember` directly or through
`HandleGossipMessage` — may change only `last_heartbeat` and `is_alive` of a
member already known: its stored node id, host and port survive, whatever
heartbeat or address the incoming entries carry. -/
theorem c10_gossip_preserves_address :
    (∀ (ms : String → Option NodeInfo) (node : NodeInfo) (id : String)
      (old : NodeInfo), ms id = some old →
      ∃ x, MembershipManager.AddMember ms node id = some x ∧
        x.node_id = old.node_id ∧ x.host = old.host ∧ x.port = old.port) ∧
    (∀ (self : String) (entries : List NodeInfo) (ms : String → Option NodeInfo)
      (id : String) (old : NodeInfo), ms id = some old →
      ∃ x, MembershipManager.HandleGossipMessage self ms entries id = some x ∧
        x.node_id = old.node_id ∧ x.host = old.host ∧ x.port = old.port) := by
  refine ⟨addMember_preserves_address, ?_⟩
  intro self entries
  induction entries with
  | nil => intro ms id old h; exact ⟨old, h, rfl, rfl, rfl⟩
  | cons info rest ih =>
    intro ms id old h
    show ∃ x, MembershipManager.HandleGossipMessage self
      (if info.node_id = self then ms else MembershipManager.AddMember ms info)
      rest id = some x ∧ _
    by_cases hself : info.node_id = self
    · rw [if_pos hself]
      exact ih ms id old h
    · rw [if_neg hself]
      obtain ⟨x, hx, h1, h2, h3⟩ := addMember_preserves_address ms info id old h
      obtain ⟨y, hy, g1, g2, g3⟩ := ih (MembershipManager.AddMember ms info) id x hx
      exact ⟨y, hy, g1.trans h1, g2.trans h2, g3.trans h3⟩

/-- Witness for C10: a known member "n2" at h1:1 receives a gossip entry with
a strictly newer heartbeat and a different address; the stored host and port
survive the merge. -/
theorem c10_gossip_preserves_address_witness :
    ((fun k => if k = "n2" then some (⟨"n2", "h1", 1, true, 5⟩ : NodeInfo)
        else none) "n2" = some ⟨"n2", "h1", 1, true, 5⟩) ∧
    (∃ x, MembershipManager.HandleGossipMessage "n1"
        (fun k => if k = "n2" then some ⟨"n2", "h1", 1, true, 5⟩ else none)
        [⟨"n2", "evil-host", 99, true, 50⟩] "n2" = some x ∧
      x.node_id = "n2" ∧ x.host = "h1" ∧ x.port = 1) := by
  refine ⟨by decide, ?_⟩
  exact (c10_gossip_preserves_address).2 "n1" [⟨"n2", "evil-host", 99, true, 50⟩]
    (fun k => if k = "n2" then some ⟨"n2", "h1", 1, true, 5⟩ else none)
    "n2" ⟨"n2", "h1", 1, true, 5⟩ (by decide)
